import Mathlib

/-!
Verification of the ak-zod-form-kit library: a shallow embedding of its
data model (JavaScript values, FormData containers, Zod-style schemas)
and of its operations (extraction, transformation, dynamic schema
construction, validation, error formatting, encoding), with theorems
checking the documented behaviour.

JavaScript objects are modelled as association lists in insertion order;
JavaScript numbers are modelled as integers (only integer-rendering is
relevant to the properties checked here).
-/

set_option autoImplicit false

/-- JavaScript value model: primitives, Date, File, Blob, arrays and
plain objects, as handled by the library. -/
inductive JValue where
  | str (s : String)
  | num (n : Int)
  | bool (b : Bool)
  | null
  | date (t : Int)
  | file (name content : String)
  | blob (content : String)
  | arr (items : List JValue)
  | obj (fields : List (String × JValue))

/-- Lookup of a key in a JavaScript-object-like association list
(first occurrence wins; objects built by the library have unique keys). -/
def getKey {α : Type _} : List (String × α) → String → Option α
  | [], _ => none
  | (k, v) :: rest, key => if k = key then some v else getKey rest key

/-- Assignment obj[key] = val with JavaScript semantics: an existing key
is updated in place, a fresh key is appended at the end. -/
def setKey {α : Type _} : List (String × α) → String → α → List (String × α)
  | [], key, val => [(key, val)]
  | (k, v) :: rest, key, val =>
      if k = key then (k, val) :: rest else (k, v) :: setKey rest key val

/-- Key-membership test for a JavaScript-object-like association list. -/
def hasKey {α : Type _} (l : List (String × α)) (key : String) : Bool :=
  (getKey l key).isSome

/-- The spread merge of two objects, as in the expression with dots
(additional data wins on key collision). -/
def mergeSpread {α : Type _} (a b : List (String × α)) : List (String × α) :=
  b.foldl (fun acc e => setKey acc e.1 e.2) a

/-- Model of the ISO-8601 rendering produced by Date.toISOString. The
concrete calendar formatting is external to the library; the model keeps
it as an injective encoding of the timestamp, distinct from the default
string form below. -/
def dateToISO (t : Int) : String := toString t ++ "Z-ISO"

/-- Model of the default string form String(date) of a JavaScript Date
(the human-readable rendering), likewise kept as an injective encoding
of the timestamp. It never coincides with the ISO-8601 rendering. -/
def dateToHuman (t : Int) : String := toString t ++ "-HUMAN"

/-- Model of the JavaScript String(value) conversion for the values of
the model: strings unchanged, numbers and booleans rendered, null as
the text null, File and Blob as their object tags, arrays joined with
commas, plain objects as the object tag. -/
def jsString : JValue → String
  | .str s => s
  | .num n => toString n
  | .bool b => if b then "true" else "false"
  | .null => "null"
  | .date t => dateToHuman t
  | .file _ _ => "[object File]"
  | .blob _ => "[object Blob]"
  | .arr items => String.intercalate "," (items.map (fun item => jsStringShallow item))
  | .obj _ => "[object Object]"
where
  /-- Array elements are rendered one level deep (enough for the model:
  the library never stringifies nested arrays). -/
  jsStringShallow : JValue → String
    | .str s => s
    | .num n => toString n
    | .bool b => if b then "true" else "false"
    | .null => ""
    | .date t => dateToHuman t
    | .file _ _ => "[object File]"
    | .blob _ => "[object Blob]"
    | .arr _ => ""
    | .obj _ => "[object Object]"

/-- Input accepted by extractDataFromFormData: either a FormData-like
multi-valued container (a list of appended entries, repeated keys
allowed) or a plain JavaScript object. -/
inductive FormInput where
  | formData (entries : List (String × JValue))
  | obj (entries : List (String × JValue))

/-- Options of extractDataFromFormData (interface
FormDataExtractionOptions in types.ts), with the same defaults the
function destructures: empty keyTransforms, empty excludeFields, and an
absent includeFields. -/
structure FormDataExtractionOptions where
  keyTransforms : List (String × String) := []
  excludeFields : List String := []
  includeFields : Option (List String) := none

/-- The shouldProcessKey closure of extractDataFromFormData: a key is
dropped when listed in excludeFields, and, when the includeFields array
is present (truthy in JavaScript, even when empty), also when it is not
a member of it. -/
def shouldProcessKey (opts : FormDataExtractionOptions) (key : String) : Bool :=
  if opts.excludeFields.contains key then false
  else
    match opts.includeFields with
    | some includeList => includeList.contains key
    | none => true

/-- The transformKey closure of extractDataFromFormData: keyTransforms
at the key, or the key itself when the mapping is absent or maps to the
empty string (JavaScript falsy fallback of the or-operator). -/
def transformKey (opts : FormDataExtractionOptions) (key : String) : String :=
  match getKey opts.keyTransforms key with
  | some newKey => if newKey = "" then key else newKey
  | none => key

/-- FormData.getAll: all values appended under a key, in insertion
order. -/
def getAll (fd : List (String × JValue)) (key : String) : List JValue :=
  (fd.filter (fun e => e.1 = key)).map (fun e => e.2)

/-- The value stored by extractDataFromFormData for a FormData key: the
list of all its values when there are more than one, the single value
unwrapped otherwise. The null default is unreachable (the key is only
processed while visiting one of its own entries). -/
def extractValue (fd : List (String × JValue)) (key : String) : JValue :=
  let allValues := getAll fd key
  if allValues.length > 1 then .arr allValues else (allValues.head?).getD .null

/-- One step of the forEach loop of the FormData branch of
extractDataFromFormData; the state is the processedKeys set (as a list)
together with the result object under construction. -/
def extractStep (opts : FormDataExtractionOptions) (fd : List (String × JValue))
    (st : List String × List (String × JValue)) (e : String × JValue) :
    List String × List (String × JValue) :=
  if shouldProcessKey opts e.1 then
    if st.1.contains e.1 then st
    else (e.1 :: st.1, setKey st.2 (transformKey opts e.1) (extractValue fd e.1))
  else st

/-- extractDataFromFormData: pulls a flat object out of a FormData
container (each distinct key visited once, multi-valued keys collected
as arrays) or out of a plain object (entries copied), applying the
include and exclude filters on the original key names and the key
renaming on the kept keys. -/
def extractDataFromFormData (data : FormInput)
    (options : FormDataExtractionOptions) : List (String × JValue) :=
  match data with
  | .formData fd => (fd.foldl (extractStep options fd) ([], [])).2
  | .obj entries =>
      entries.foldl
        (fun result e =>
          if shouldProcessKey options e.1 then
            setKey result (transformKey options e.1) e.2
          else result)
        []

/-- applyDataTransformations: shallow copy of the data, then for each
transformation whose key exists in the original data, the copy at that
key is replaced by the function applied to the original value. -/
def applyDataTransformations (data : List (String × JValue))
    (transformations : List (String × (JValue → JValue))) :
    List (String × JValue) :=
  transformations.foldl
    (fun transformedData e =>
      match getKey data e.1 with
      | some v => setKey transformedData e.1 (e.2 v)
      | none => transformedData)
    data

/-- One segment of a Zod issue path: an object key or an array index. -/
inductive PathSeg where
  | key (s : String)
  | idx (n : Nat)
deriving DecidableEq

/-- Rendering of a path segment as Array.prototype.join renders it. -/
def PathSeg.render : PathSeg → String
  | .key s => s
  | .idx n => toString n

/-- A structured Zod validation issue: a path into the data and a
message. -/
structure ZodIssue where
  path : List PathSeg
  message : String
deriving DecidableEq

/-- The dot-joined form of an issue path, as issue.path.join produces
it. -/
def joinPath (path : List PathSeg) : String :=
  String.intercalate "." (path.map PathSeg.render)

/-- The discriminated result of safeParse: success with the parsed data,
or failure with the ordered issue list. -/
inductive SafeParseResult (α : Type) where
  | success (data : α)
  | failure (issues : List ZodIssue)

/-- Whether a safeParse result is a success. -/
def SafeParseResult.isSuccess {α : Type} : SafeParseResult α → Bool
  | .success _ => true
  | .failure _ => false

/-- A per-field Zod validator, kept abstract: it receives the value
found at the key (none when the key is absent) and either returns the
parsed value (none meaning the key is omitted from the output) or a
list of issues with paths relative to the field. -/
structure ZodFieldSchema where
  parse : Option JValue → Except (List ZodIssue) (Option JValue)

/-- The z.optional wrapper (used by the partial strategies): an absent
value is accepted and omitted, a present value is parsed by the wrapped
field. -/
def zodOptional (f : ZodFieldSchema) : ZodFieldSchema :=
  ⟨fun v =>
    match v with
    | none => .ok none
    | some value => f.parse (some value)⟩

/-- The z.unknown field schema: accepts anything and returns it
unchanged; an absent key stays absent. -/
def zodUnknown : ZodFieldSchema :=
  ⟨fun v => .ok v⟩

/-- Unknown-key policy of a Zod object schema: strict rejects
undeclared keys, strip silently drops them, passthrough retains them. -/
inductive UnknownKeysMode where
  | strict
  | strip
  | passthrough
deriving DecidableEq

/-- A Zod object schema: the ordered shape of named field declarations
and the unknown-key policy (Zod objects default to strip). -/
structure ZodObjectSchema where
  shape : List (String × ZodFieldSchema)
  unknownKeys : UnknownKeysMode := .strip

/-- The method .strict() of a Zod object schema. -/
def ZodObjectSchema.strict (o : ZodObjectSchema) : ZodObjectSchema :=
  { o with unknownKeys := .strict }

/-- The method .strip() of a Zod object schema. -/
def ZodObjectSchema.strip (o : ZodObjectSchema) : ZodObjectSchema :=
  { o with unknownKeys := .strip }

/-- The method .passthrough() of a Zod object schema. -/
def ZodObjectSchema.passthrough (o : ZodObjectSchema) : ZodObjectSchema :=
  { o with unknownKeys := .passthrough }

/-- The method .partial() of a Zod object schema: every root-level
field becomes optional (non-recursive). -/
def ZodObjectSchema.makeAllOptional (o : ZodObjectSchema) : ZodObjectSchema :=
  { o with shape := o.shape.map (fun e => (e.1, zodOptional e.2)) }

/-- The JavaScript object spread of two shapes: fields of the second
shape replace same-named fields of the first entirely. -/
def spreadShape (a b : List (String × ZodFieldSchema)) :
    List (String × ZodFieldSchema) :=
  b.foldl (fun acc e => setKey acc e.1 e.2) a

/-- The method .extend(fields) of a Zod object schema: the shape is
spread with the new fields; the unknown-key policy is kept. -/
def ZodObjectSchema.extend (o : ZodObjectSchema)
    (fields : List (String × ZodFieldSchema)) : ZodObjectSchema :=
  { o with shape := spreadShape o.shape fields }

/-- The method a.merge(b) of Zod object schemas: shapes are spread
(the second schema wins on conflicting field names, replacing the
declaration entirely) and the unknown-key policy is taken from the
second schema. -/
def ZodObjectSchema.merge (a b : ZodObjectSchema) : ZodObjectSchema :=
  { shape := spreadShape a.shape b.shape, unknownKeys := b.unknownKeys }

/-- A Zod schema as used by the library: an object schema or a union
of schemas (the shape produced by z.union). -/
inductive ZodSchema where
  | object (o : ZodObjectSchema)
  | union (members : List ZodSchema)

/-- Whether a schema is object-shaped (the instanceof ZodObject test). -/
def ZodSchema.isObjectSchema : ZodSchema → Bool
  | .object _ => true
  | .union _ => false

/-- The per-field parse results of an object schema on the entries of
an input object: for each declared field, the field name with the
outcome of its validator on the value found at that name. -/
def fieldResultsOf (shape : List (String × ZodFieldSchema))
    (entries : List (String × JValue)) :
    List (String × Except (List ZodIssue) (Option JValue)) :=
  shape.map (fun e => (e.1, e.2.parse (getKey entries e.1)))

/-- The issues of the per-field results, each issue path prefixed with
its field name, in shape order. -/
def fieldIssuesOf
    (results : List (String × Except (List ZodIssue) (Option JValue))) :
    List ZodIssue :=
  results.foldr
    (fun r acc =>
      (match r.2 with
       | .error issues => issues.map (fun i => ⟨.key r.1 :: i.path, i.message⟩)
       | .ok _ => []) ++ acc)
    []

/-- The successfully parsed fields of the per-field results, in shape
order, omitting fields whose validator returned no value. -/
def parsedFieldsOf
    (results : List (String × Except (List ZodIssue) (Option JValue))) :
    List (String × JValue) :=
  results.foldr
    (fun r acc =>
      (match r.2 with
       | .ok (some pv) => [(r.1, pv)]
       | _ => []) ++ acc)
    []

/-- Parsing of a value by an object schema, following the Zod object
parser: each declared field parses the value at its key (with the
issues prefixed by the key), undeclared keys are handled by the
unknown-key policy (strict produces a single unrecognized-keys issue,
passthrough retains them, strip drops them), and the output object
keeps shape order followed by retained unknown keys in input order. -/
def parseObjectSchema (o : ZodObjectSchema) (v : JValue) :
    SafeParseResult JValue :=
  match v with
  | .obj entries =>
      let fieldResults := fieldResultsOf o.shape entries
      let fieldIssues := fieldIssuesOf fieldResults
      let extraKeys := (entries.map (fun e => e.1)).filter (fun k => !(hasKey o.shape k))
      let strictIssues :=
        match o.unknownKeys with
        | .strict =>
            if extraKeys.isEmpty then []
            else [⟨[], "Unrecognized key(s) in object: " ++ String.intercalate ", " extraKeys⟩]
        | _ => []
      let allIssues := fieldIssues ++ strictIssues
      if allIssues.isEmpty then
        let parsedFields := parsedFieldsOf fieldResults
        let extras :=
          match o.unknownKeys with
          | .passthrough => entries.filter (fun e => !(hasKey o.shape e.1))
          | _ => []
        .success (.obj (parsedFields ++ extras))
      else .failure allIssues
  | _ => .failure [⟨[], "Expected object"⟩]

mutual

/-- safeParse of a schema: object schemas parse as above; a union tries
its members in order and the first success wins, otherwise the union
fails with an invalid-input issue. -/
def ZodSchema.parse : ZodSchema → JValue → SafeParseResult JValue
  | .object o, v => parseObjectSchema o v
  | .union members, v => parseUnionMembers members v

/-- Helper of the union parser: first successful member wins. -/
def parseUnionMembers : List ZodSchema → JValue → SafeParseResult JValue
  | [], _ => .failure [⟨[], "Invalid input"⟩]
  | m :: rest, v =>
      match m.parse v with
      | .success d => .success d
      | .failure _ => parseUnionMembers rest v

end

/-- formatZodErrorsAsObject: an empty object for a success; for a
failure, each issue maps its dot-joined path to its message, a later
issue overwriting an earlier one with the same joined path. -/
def formatZodErrorsAsObject (validationResult : SafeParseResult JValue) :
    List (String × String) :=
  match validationResult with
  | .success _ => []
  | .failure issues =>
      issues.foldl (fun errors issue => setKey errors (joinPath issue.path) issue.message) []

/-- formatZodErrorsAsArray: an empty array for a success; for a
failure, one key-message pair per issue, in issue order. -/
def formatZodErrorsAsArray (validationResult : SafeParseResult JValue) :
    List (String × String) :=
  match validationResult with
  | .success _ => []
  | .failure issues => issues.map (fun issue => (joinPath issue.path, issue.message))

mutual

/-- The appendDataRecursively helper of convertObjectToFormData,
returning the FormData entries it appends, in order: null becomes an
empty string, File and Blob are appended as such (the File keeping its
name), a Date is appended as its ISO-8601 string, an array iterates
its elements (complex elements recurse under key[index], others are
appended as String(item) under the unqualified key), a plain object
recurses under key[propertyKey], and remaining primitives are appended
as String(value). -/
def appendDataRecursively (key : String) : JValue → List (String × JValue)
  | .null => [(key, .str "")]
  | .file name content => [(key, .file name content)]
  | .blob content => [(key, .blob content)]
  | .date t => [(key, .str (dateToISO t))]
  | .arr items => appendArrayItems key 0 items
  | .obj fields => appendObjectFields key fields
  | .str s => [(key, .str (jsString (.str s)))]
  | .num n => [(key, .str (jsString (.num n)))]
  | .bool b => [(key, .str (jsString (.bool b)))]

/-- The forEach over an array inside appendDataRecursively, carrying
the element index: a complex element (array or plain object) recurses
under the indexed key, any other element is appended as its string
form under the unqualified key. -/
def appendArrayItems (key : String) (index : Nat) :
    List JValue → List (String × JValue)
  | [] => []
  | item :: rest =>
      (match item with
       | .arr inner => appendDataRecursively (key ++ "[" ++ toString index ++ "]") (.arr inner)
       | .obj inner => appendDataRecursively (key ++ "[" ++ toString index ++ "]") (.obj inner)
       | other => [(key, .str (jsString other))]) ++ appendArrayItems key (index + 1) rest

/-- The forEach over the entries of a plain object inside
appendDataRecursively. -/
def appendObjectFields (key : String) :
    List (String × JValue) → List (String × JValue)
  | [] => []
  | e :: rest =>
      appendDataRecursively (key ++ "[" ++ e.1 ++ "]") e.2 ++ appendObjectFields key rest

end

/-- convertObjectToFormData: appends every top-level entry of the
object through appendDataRecursively. -/
def convertObjectToFormData (inputObject : List (String × JValue)) :
    List (String × JValue) :=
  inputObject.foldr (fun e acc => appendDataRecursively e.1 e.2 ++ acc) []

/-- The validation strategies of the library (type ValidationStrategy);
partialStrict and partialAll model the partial-strict and partial
strategy names. -/
inductive ValidationStrategy where
  | strict
  | allowExtraFields
  | removeExtraFields
  | partialStrict
  | partialAll
deriving DecidableEq

/-- The source name of a validation strategy, used in the diagnostic
message. -/
def ValidationStrategy.render : ValidationStrategy → String
  | .strict => "strict"
  | .allowExtraFields => "allowExtraFields"
  | .removeExtraFields => "removeExtraFields"
  | .partialStrict => "partial-strict"
  | .partialAll => "partial"

/-- The structural schema modifications of the library (type
SchemaModification). -/
inductive SchemaModification where
  | defaultMod
  | mergeWithAnd
  | mergeWithOr
deriving DecidableEq

/-- Model of the unchecked TypeScript cast of an additional schema to
ZodObject inside the mergeWithAnd branch: on a union the JavaScript
code would fail at runtime when calling merge, so the default value
here is only reached outside the object-shaped hypotheses of the
theorems below. -/
def ZodSchema.asZodObject : ZodSchema → ZodObjectSchema
  | .object o => o
  | .union _ => { shape := [] }

/-- The console warning emitted when a non-strict strategy is requested
while the schema is no longer a ZodObject. -/
def dynamicSchemaWarning (strategy : ValidationStrategy) : String :=
  "Validation strategy " ++ strategy.render ++
    " is for ZodObject schemas; the schema is now a union and will behave as strict."

/-- The result of createDynamicZodSchema: the effective schema together
with the console warnings emitted while building it. -/
structure DynSchemaResult where
  schema : ZodSchema
  warnings : List String

/-- createDynamicZodSchema: first the structural modification
(mergeWithAnd reduces the additional schemas into the base with merge,
mergeWithOr builds the union of the base and the additional schemas,
defaultMod keeps the base), then the validation strategy, applied only
when the schema is still a ZodObject: allowExtraFields switches to
passthrough and, when the input data has keys unknown to the shape,
replaces that by extending the original object with those keys typed
unknown; removeExtraFields strips; partialStrict makes all fields
optional then strict; partialAll makes all fields optional then
passthrough; strict applies strict. When the schema is no longer a
ZodObject and a non-strict strategy was requested, the schema is
returned unchanged and a warning is emitted. -/
def createDynamicZodSchema (baseSchema : ZodObjectSchema)
    (inputData : List (String × JValue))
    (validationStrategy : ValidationStrategy)
    (schemaModification : SchemaModification)
    (additionalSchemas : List ZodSchema) : DynSchemaResult :=
  let schema : ZodSchema :=
    match schemaModification with
    | .mergeWithAnd =>
        .object (additionalSchemas.foldl
          (fun acc curr => acc.merge curr.asZodObject) baseSchema)
    | .mergeWithOr => .union (.object baseSchema :: additionalSchemas)
    | .defaultMod => .object baseSchema
  match schema with
  | .object objectSchema =>
      let schemaAfterStrategy : ZodSchema :=
        match validationStrategy with
        | .allowExtraFields =>
            let dynamicKeys := (inputData.map (fun e => e.1)).filter
              (fun k => !(hasKey objectSchema.shape k))
            let dynamicFields := dynamicKeys.foldl
              (fun acc k => setKey acc k zodUnknown) []
            if dynamicFields.length > 0 then .object (objectSchema.extend dynamicFields)
            else .object objectSchema.passthrough
        | .removeExtraFields => .object objectSchema.strip
        | .partialStrict => .object objectSchema.makeAllOptional.strict
        | .partialAll => .object objectSchema.makeAllOptional.passthrough
        | .strict => .object objectSchema.strict
      ⟨schemaAfterStrategy, []⟩
  | nonObject =>
      if validationStrategy = .strict then ⟨nonObject, []⟩
      else ⟨nonObject, [dynamicSchemaWarning validationStrategy]⟩

/-- validateDataWithDynamicSchema: builds the dynamic schema from the
data and the options, then runs safeParse on the data. -/
def validateDataWithDynamicSchema (baseSchema : ZodObjectSchema)
    (data : List (String × JValue))
    (validationStrategy : ValidationStrategy)
    (schemaModification : SchemaModification)
    (additionalSchemas : List ZodSchema) : SafeParseResult JValue :=
  (createDynamicZodSchema baseSchema data validationStrategy schemaModification
    additionalSchemas).schema.parse (.obj data)

/-- The output format option of processAndValidateFormData. -/
inductive OutputFormat where
  | objectFormat
  | formDataFormat
deriving DecidableEq

/-- Options of processAndValidateFormData (interface
FormDataProcessingOptions), with the defaults the function
destructures. The useDynamicValidation flag is declared by the options
interface in types.ts (documented default true). -/
structure FormDataProcessingOptions where
  keyTransforms : List (String × String) := []
  excludeFields : List String := []
  includeFields : Option (List String) := none
  useDynamicValidation : Bool := true
  transformations : List (String × (JValue → JValue)) := []
  outputFormat : OutputFormat := .objectFormat
  additionalData : List (String × JValue) := []
  validationStrategy : ValidationStrategy := .strict
  schemaModification : SchemaModification := .defaultMod
  additionalSchemas : List ZodSchema := []

/-- The data part of a successful processing result: a plain object or
a FormData container. -/
inductive ProcessedData where
  | plain (v : JValue)
  | formData (fd : List (String × JValue))

/-- The discriminated result of processAndValidateFormData. -/
inductive ProcessedFormDataResult where
  | ok (data : ProcessedData)
  | err (data : List (String × JValue)) (errors : List (String × String))
      (errorsInArray : List (String × String)) (errorsInString : String)

/-- Whether a processing result is a success. -/
def ProcessedFormDataResult.isSuccess : ProcessedFormDataResult → Bool
  | .ok _ => true
  | .err _ _ _ _ => false

/-- Model of the TypeScript cast of the validated data back to an
object before conversion to FormData (the validated output of an
object schema is always an object). -/
def JValue.objEntries : JValue → List (String × JValue)
  | .obj entries => entries
  | _ => []

/-- processAndValidateFormData: extracts from the input with the
extraction sub-options, spreads the additional data over the extracted
data, applies the custom transformations, validates through
validateDataWithDynamicSchema with the strategy, modification and
additional schemas of the options, and returns the validated data (as
object or FormData) on success, or the processed data with the three
error formats on failure. -/
def processAndValidateFormData (schema : ZodObjectSchema)
    (inputData : FormInput)
    (options : FormDataProcessingOptions) : ProcessedFormDataResult :=
  let extractOptions : FormDataExtractionOptions :=
    { keyTransforms := options.keyTransforms,
      excludeFields := options.excludeFields,
      includeFields := options.includeFields }
  let extractedFormData := extractDataFromFormData inputData extractOptions
  let merged := mergeSpread extractedFormData options.additionalData
  let dataToProcess := applyDataTransformations merged options.transformations
  let validationResult := validateDataWithDynamicSchema schema dataToProcess
    options.validationStrategy options.schemaModification options.additionalSchemas
  match validationResult with
  | .success validated =>
      match options.outputFormat with
      | .formDataFormat => .ok (.formData (convertObjectToFormData validated.objEntries))
      | .objectFormat => .ok (.plain validated)
  | .failure issues =>
      let errorsInArray := formatZodErrorsAsArray (.failure issues)
      .err dataToProcess (formatZodErrorsAsObject (.failure issues)) errorsInArray
        (String.intercalate "\n" (errorsInArray.map (fun e => e.2)))

/-- The entries underlying either kind of extraction source. -/
def FormInput.entries : FormInput → List (String × JValue)
  | .formData es => es
  | .obj es => es

/-- The multi-value collapse applied by the FormData branch of the
extractor: a list of more than one value becomes an array, a single
value is unwrapped, an empty list gives nothing. -/
def multiValue (values : List JValue) : Option JValue :=
  if values.length > 1 then some (.arr values) else values.head?

/-- The field declaration of the last schema in a list that declares a
given field (used to state the last-wins law of mergeWithAnd). -/
def lastDeclaration (k : String) (schemas : List ZodObjectSchema) :
    Option ZodFieldSchema :=
  (schemas.reverse.find? (fun s => hasKey s.shape k)).bind (fun s => getKey s.shape k)

/-- Lookup into the object produced by a successful parse (none for a
failure or a non-object success). -/
def successObjGet (result : SafeParseResult JValue) (k : String) : Option JValue :=
  match result with
  | .success (.obj entries) => getKey entries k
  | _ => none

/-- Whether a value is a bare primitive (string, number or boolean). -/
def scalarOnly : JValue → Bool
  | .str _ => true
  | .num _ => true
  | .bool _ => true
  | _ => false

/-- The round-trip shape of a value: a primitive, a nested mapping of
primitives, or a list of at least two primitives (a shorter list does
not survive the round trip: a singleton comes back unwrapped and an
empty list disappears). -/
def flatShapeValue : JValue → Bool
  | .obj fields => fields.all (fun e => scalarOnly e.2)
  | .arr items => items.all scalarOnly && decide (2 ≤ items.length)
  | v => scalarOnly v

/-- The FormData key names generated for a mapping by the encoder: a
nested mapping contributes one bracketed key per child, anything else
contributes its own key. -/
def genKeys (m : List (String × JValue)) : List String :=
  m.foldr
    (fun e acc =>
      (match e.2 with
       | .obj fields => fields.map (fun f => e.1 ++ "[" ++ f.1 ++ "]")
       | _ => [e.1]) ++ acc)
    []

/-- The flattened stringification actually produced by the encode and
extract round trip: scalars become their string form under their own
key, a list becomes an array of string forms under its own key, and a
nested mapping becomes flat bracketed keys. -/
def flatExtract (m : List (String × JValue)) : List (String × JValue) :=
  m.foldr
    (fun e acc =>
      (match e.2 with
       | .obj fields =>
           fields.map (fun f => (e.1 ++ "[" ++ f.1 ++ "]", JValue.str (jsString f.2)))
       | .arr items => [(e.1, JValue.arr (items.map (fun it => JValue.str (jsString it))))]
       | v => [(e.1, JValue.str (jsString v))]) ++ acc)
    []

/-- Modelled from the words of the round-trip property of the spec: the
stringified form of the mapping with each scalar replaced by its string
encoding, the list kept as a multi-valued field and the one level of
nesting kept as a nested mapping. -/
def specStringified (m : List (String × JValue)) : List (String × JValue) :=
  m.map
    (fun e =>
      (e.1,
       match e.2 with
       | .obj fields => JValue.obj (fields.map (fun f => (f.1, JValue.str (jsString f.2))))
       | .arr items => JValue.arr (items.map (fun it => JValue.str (jsString it)))
       | v => JValue.str (jsString v)))

/-- A concrete required-string field validator for the witness
scenarios. -/
def stringField : ZodFieldSchema :=
  ⟨fun v =>
    match v with
    | some (.str s) => .ok (some (.str s))
    | some _ => .error [⟨[], "Expected string"⟩]
    | none => .error [⟨[], "Required"⟩]⟩

/-- A concrete email validator: a string containing an at sign, with a
custom message. -/
def emailValidator : ZodFieldSchema :=
  ⟨fun v =>
    match v with
    | some (.str s) =>
        if s.data.contains (Char.ofNat 64) then .ok (some (.str s))
        else .error [⟨[], "Invalid email"⟩]
    | some _ => .error [⟨[], "Invalid email"⟩]
    | none => .error [⟨[], "Required"⟩]⟩

/-- A concrete url validator: a string starting with http, with a
custom message. -/
def urlValidator : ZodFieldSchema :=
  ⟨fun v =>
    match v with
    | some (.str s) =>
        if ("http".data.isPrefixOf s.data) then .ok (some (.str s))
        else .error [⟨[], "Invalid url"⟩]
    | some _ => .error [⟨[], "Invalid url"⟩]
    | none => .error [⟨[], "Required"⟩]⟩

/-- The base schema of the mergeWithAnd conflict scenario: an email
field validated as an email. -/
def emailBaseSchema : ZodObjectSchema := { shape := [("email", emailValidator)] }

/-- The auxiliary schema of the mergeWithAnd conflict scenario: the
same field validated as a url. -/
def urlAuxSchema : ZodObjectSchema := { shape := [("email", urlValidator)] }

/-- A concrete base schema with a single declared string field, used by
the orchestrator counterexample. -/
def nameOnlySchema : ZodObjectSchema := { shape := [("name", stringField)] }

/-- The concrete round-trip mapping used by the counterexample and the
witness: a scalar, a nested mapping of one primitive, and a list of two
primitives. -/
def roundTripInput : List (String × JValue) :=
  [("a", .str "s"), ("n", .obj [("x", .bool true)]), ("l", .arr [.num 1, .num 2])]

@[simp] theorem getKey_nil {α : Type _} (key : String) :
    getKey ([] : List (String × α)) key = none := rfl

@[simp] theorem getKey_cons {α : Type _} (k : String) (v : α)
    (rest : List (String × α)) (key : String) :
    getKey ((k, v) :: rest) key = if k = key then some v else getKey rest key := rfl

theorem getKey_setKey {α : Type _} (l : List (String × α)) (k : String) (v : α)
    (key : String) :
    getKey (setKey l k v) key = if k = key then some v else getKey l key := by
  induction l with
  | nil => simp [setKey, getKey]
  | cons e rest ih =>
      obtain ⟨ek, ev⟩ := e
      by_cases h1 : ek = k
      · subst h1
        by_cases h2 : ek = key <;> simp [setKey, getKey, h2]
      · have hne : k ≠ ek := fun h => h1 h.symm
        by_cases h2 : ek = key
        · subst h2
          simp [setKey, h1, getKey, if_neg hne]
        · simp [setKey, h1, getKey, h2, ih]

theorem hasKey_setKey {α : Type _} (l : List (String × α)) (k : String) (v : α)
    (key : String) :
    hasKey (setKey l k v) key = (decide (k = key) || hasKey l key) := by
  by_cases h : k = key <;> simp [hasKey, getKey_setKey, h]

theorem getKey_append {α : Type _} (a b : List (String × α)) (key : String) :
    getKey (a ++ b) key =
      match getKey a key with
      | some v => some v
      | none => getKey b key := by
  induction a with
  | nil => simp [getKey]
  | cons e rest ih =>
      by_cases h : e.1 = key <;> simp [getKey, h, ih]

theorem hasKey_true_iff {α : Type _} (l : List (String × α)) (key : String) :
    hasKey l key = true ↔ key ∈ l.map Prod.fst := by
  induction l with
  | nil => simp [hasKey, getKey]
  | cons e rest ih =>
      obtain ⟨ek, ev⟩ := e
      by_cases h : ek = key
      · subst h
        simp [hasKey, getKey]
      · simp only [hasKey] at ih ⊢
        rw [getKey_cons, if_neg h]
        simp only [List.map_cons, List.mem_cons]
        rw [ih]
        constructor
        · exact Or.inr
        · rintro (rfl | hm)
          · exact absurd rfl h
          · exact hm

theorem getKey_eq_none_of_hasKey_false {α : Type _} {l : List (String × α)}
    {key : String} (h : hasKey l key = false) : getKey l key = none := by
  cases hg : getKey l key with
  | none => rfl
  | some v => simp [hasKey, hg] at h

theorem getKey_eq_none_of_not_mem {α : Type _} (l : List (String × α)) (key : String)
    (h : key ∉ l.map Prod.fst) : getKey l key = none := by
  apply getKey_eq_none_of_hasKey_false
  cases hk : hasKey l key with
  | false => rfl
  | true => exact absurd ((hasKey_true_iff l key).mp hk) h

theorem mem_keys_of_getKey_some {α : Type _} {l : List (String × α)} {key : String}
    {v : α} (h : getKey l key = some v) : key ∈ l.map Prod.fst :=
  (hasKey_true_iff l key).mp (by simp [hasKey, h])

theorem setKey_of_not_mem {α : Type _} (l : List (String × α)) (key : String) (v : α)
    (h : key ∉ l.map Prod.fst) : setKey l key v = l ++ [(key, v)] := by
  induction l with
  | nil => simp [setKey]
  | cons e rest ih =>
      simp only [List.map_cons, List.mem_cons] at h
      push_neg at h
      have h1 : e.1 ≠ key := fun he => h.1 he.symm
      simp [setKey, h1, ih h.2]

theorem foldl_setKey_fresh {α : Type _} (b : List (String × α)) :
    ∀ (a : List (String × α)), (∀ e ∈ b, hasKey a e.1 = false) →
    (b.map Prod.fst).Nodup →
    b.foldl (fun acc e => setKey acc e.1 e.2) a = a ++ b := by
  induction b with
  | nil => intro a _ _; simp
  | cons e rest ih =>
      intro a hfresh hnodup
      rw [List.map_cons, List.nodup_cons] at hnodup
      have he : e.1 ∉ a.map Prod.fst := by
        intro hm
        have h1 := hfresh e (by simp)
        have h2 := (hasKey_true_iff a e.1).mpr hm
        simp [h1] at h2
      rw [List.foldl_cons, setKey_of_not_mem a e.1 e.2 he]
      rw [ih (a ++ [(e.1, e.2)]) ?_ hnodup.2]
      · simp
      · intro f hf
        have hfa := hfresh f (by simp [hf])
        have hf1 : f.1 ∈ List.map Prod.fst rest := List.mem_map_of_mem Prod.fst hf
        have hne : e.1 ≠ f.1 := fun hh => hnodup.1 (hh ▸ hf1)
        simp [hasKey, getKey_append, getKey_eq_none_of_hasKey_false hfa, getKey, hne]

theorem find_append_match {α : Type _} (l1 l2 : List α) (p : α → Bool) :
    (l1 ++ l2).find? p =
      match l1.find? p with
      | some a => some a
      | none => l2.find? p := by
  induction l1 with
  | nil => simp
  | cons a rest ih =>
      by_cases h : p a = true <;> simp [List.find?_cons, h, ih]

theorem getKey_eq_find {α : Type _} (l : List (String × α)) (key : String) :
    getKey l key = (l.find? (fun e => e.1 = key)).map Prod.snd := by
  induction l with
  | nil => simp [getKey]
  | cons e rest ih =>
      by_cases h : e.1 = key <;> simp [getKey, List.find?_cons, h, ih]

theorem foldl_setKey_message (issues : List ZodIssue) :
    ∀ (init : List (String × String)) (p : String),
    getKey (issues.foldl
      (fun errors issue => setKey errors (joinPath issue.path) issue.message) init) p =
      match issues.reverse.find? (fun i => joinPath i.path = p) with
      | some i => some i.message
      | none => getKey init p := by
  induction issues with
  | nil => intro init p; simp
  | cons i rest ih =>
      intro init p
      rw [List.foldl_cons, ih, List.reverse_cons, find_append_match]
      cases hf : rest.reverse.find? (fun j => joinPath j.path = p) with
      | some j => simp
      | none =>
          by_cases hp : joinPath i.path = p <;>
            simp [List.find?_cons, hp, getKey_setKey]

/-- C9: for every failed validation result, formatZodErrorsAsObject maps
each dot-joined issue path to its message with a later issue
overwriting an earlier one sharing the same joined path (the lookup at
any path equals the message of the last issue with that path), and
formatZodErrorsAsArray yields exactly one key-message pair per issue,
key the dot-joined path, in the reported issue order; for every
successful result both return empty. -/
theorem zodErrorFormatters_spec (issues : List ZodIssue) (p : String) (v : JValue) :
    getKey (formatZodErrorsAsObject (.failure issues)) p =
      (issues.reverse.find? (fun i => joinPath i.path = p)).map (fun i => i.message)
    ∧ formatZodErrorsAsArray (.failure issues) =
        issues.map (fun i => (joinPath i.path, i.message))
    ∧ formatZodErrorsAsObject (.success v) = []
    ∧ formatZodErrorsAsArray (.success v) = [] := by
  refine ⟨?_, rfl, rfl, rfl⟩
  show getKey (issues.foldl
      (fun errors issue => setKey errors (joinPath issue.path) issue.message) []) p = _
  rw [foldl_setKey_message]
  cases hf : issues.reverse.find? (fun i => joinPath i.path = p) <;> simp

/-- C1 (amended): the useDynamicValidation option has no effect on
processAndValidateFormData; the result is the same for any value of
the flag, validation always going through the dynamically built
schema. -/
theorem processAndValidateFormData_ignores_useDynamicValidation
    (schema : ZodObjectSchema) (input : FormInput)
    (options : FormDataProcessingOptions) (b : Bool) :
    processAndValidateFormData schema input { options with useDynamicValidation := b } =
      processAndValidateFormData schema input options := by
  cases options
  rfl

/-- C1 counterexample: with useDynamicValidation set to false (and all
other options left to their defaults), the claim says the function
validates the data directly against the base schema verbatim; here the
base schema (default strip policy) accepts the data verbatim, yet the
function reports a failure, because it actually builds the dynamic
schema with the default strict strategy. -/
theorem processAndValidateFormData_not_verbatim_counterexample :
    (ZodSchema.parse (.object nameOnlySchema)
        (.obj [("name", .str "x"), ("extra", .str "y")])).isSuccess = true
    ∧ (processAndValidateFormData nameOnlySchema
        (.obj [("name", .str "x"), ("extra", .str "y")])
        { useDynamicValidation := false }).isSuccess = false := by
  exact ⟨rfl, rfl⟩

/-- C6: when the post-modification schema is not object-shaped (the
union produced by mergeWithOr), the builder returns it unchanged: with
a non-strict strategy it only emits the diagnostic warning, and with
the strict strategy it emits nothing; in both cases no strategy is
applied to the union, whose members keep their own strictness. -/
theorem mergeWithOr_leaves_union_unchanged (base : ZodObjectSchema)
    (input : List (String × JValue)) (strategy : ValidationStrategy)
    (adds : List ZodSchema) (h : strategy ≠ .strict) :
    createDynamicZodSchema base input strategy .mergeWithOr adds =
      ⟨.union (.object base :: adds), [dynamicSchemaWarning strategy]⟩
    ∧ createDynamicZodSchema base input .strict .mergeWithOr adds =
      ⟨.union (.object base :: adds), []⟩ := by
  constructor
  · simp [createDynamicZodSchema, h]
  · simp [createDynamicZodSchema]

/-- C6 witness at a concrete schema and strategy. -/
theorem mergeWithOr_leaves_union_unchanged_witness :
    createDynamicZodSchema { shape := [] } [] .allowExtraFields .mergeWithOr [] =
      ⟨.union [.object { shape := [] }], [dynamicSchemaWarning .allowExtraFields]⟩
    ∧ createDynamicZodSchema { shape := [] } [] .strict .mergeWithOr [] =
      ⟨.union [.object { shape := [] }], []⟩ :=
  mergeWithOr_leaves_union_unchanged { shape := [] } [] .allowExtraFields [] (by decide)

theorem applyDataTransformations_aux (data : List (String × JValue))
    (t : List (String × (JValue → JValue))) :
    ∀ (acc : List (String × JValue)) (k : String), (t.map Prod.fst).Nodup →
    getKey (t.foldl
      (fun transformedData e =>
        match getKey data e.1 with
        | some v => setKey transformedData e.1 (e.2 v)
        | none => transformedData) acc) k =
      match t.find? (fun e => e.1 = k) with
      | some e =>
          match getKey data k with
          | some v => some (e.2 v)
          | none => getKey acc k
      | none => getKey acc k := by
  induction t with
  | nil => intro acc k _; simp
  | cons e rest ih =>
      intro acc k hnodup
      rw [List.map_cons, List.nodup_cons] at hnodup
      rw [List.foldl_cons, ih _ k hnodup.2]
      by_cases hk : e.1 = k
      · subst hk
        have hrest : rest.find? (fun f => f.1 = e.1) = none := by
          apply List.find?_eq_none.mpr
          intro f hf
          simp only [decide_eq_true_eq]
          intro hh
          exact hnodup.1 (hh ▸ List.mem_map_of_mem Prod.fst hf)
        rw [hrest]
        cases hd : getKey data e.1 with
        | some v => simp [List.find?_cons, hd, getKey_setKey]
        | none => simp [List.find?_cons, hd]
      · cases hd : getKey data e.1 with
        | some v =>
            have hgk : getKey (setKey acc e.1 (e.2 v)) k = getKey acc k := by
              rw [getKey_setKey, if_neg hk]
            cases hf : rest.find? (fun f => f.1 = k) <;>
              simp [List.find?_cons, hk, hf, hgk]
        | none =>
            cases hf : rest.find? (fun f => f.1 = k) <;>
              simp [List.find?_cons, hk, hf]

/-- C8: applyDataTransformations returns a mapping in which every key
shared between the data and the transforms holds the transform applied
to the original value, every data key without a transform keeps its
value, and transform keys absent from the data insert nothing; the
input data itself is never mutated (the embedding is pure, matching
the shallow-copy behaviour of the source). -/
theorem applyDataTransformations_spec (data : List (String × JValue))
    (t : List (String × (JValue → JValue)))
    (ht : (t.map Prod.fst).Nodup) (k : String) :
    getKey (applyDataTransformations data t) k =
      match getKey data k, getKey t k with
      | some v, some f => some (f v)
      | some v, none => some v
      | none, _ => none := by
  show getKey (t.foldl _ data) k = _
  rw [applyDataTransformations_aux data t data k ht, getKey_eq_find t k]
  cases hf : t.find? (fun e => e.1 = k) with
  | some e => cases hd : getKey data k <;> simp [hd]
  | none => cases hd : getKey data k <;> simp [hd]

/-- C8 witness: a transformed key, an untouched key and an absent
transform key at concrete values. -/
theorem applyDataTransformations_spec_witness :
    getKey (applyDataTransformations
      [("price", .str "123"), ("note", .str "hi")]
      [("price", fun _ => JValue.num 123), ("missing", fun v => v)]) "price" =
      some (JValue.num 123) :=
  applyDataTransformations_spec
    [("price", .str "123"), ("note", .str "hi")]
    [("price", fun _ => JValue.num 123), ("missing", fun v => v)]
    (by decide) "price"

theorem shouldProcessKey_default (k : String) :
    shouldProcessKey {} k = true := rfl

theorem transformKey_default (k : String) :
    transformKey {} k = k := rfl

theorem extract_fold_default (fd iter : List (String × JValue)) :
    ∀ (processed : List String) (result : List (String × JValue)),
    (∀ k, getKey result k =
        if processed.contains k then some (extractValue fd k) else none) →
    ∀ k, getKey ((iter.foldl (extractStep {} fd) (processed, result)).2) k =
      if (processed.contains k || iter.any (fun e => e.1 = k))
      then some (extractValue fd k) else none := by
  induction iter with
  | nil =>
      intro processed result hinv k
      simpa using hinv k
  | cons e rest ih =>
      intro processed result hinv k
      rw [List.foldl_cons]
      have hstep : extractStep {} fd (processed, result) e =
          if processed.contains e.1 then (processed, result)
          else (e.1 :: processed, setKey result e.1 (extractValue fd e.1)) := by
        simp [extractStep, shouldProcessKey, transformKey, getKey]
      by_cases hc : processed.contains e.1
      · rw [hstep, if_pos hc, ih processed result hinv k]
        by_cases hek : e.1 = k
        · subst hek
          simp only [hc, List.any_cons, Bool.true_or]
        · have h3 : decide (e.1 = k) = false := decide_eq_false hek
          simp only [List.any_cons, h3, Bool.false_or]
      · rw [hstep, if_neg hc]
        have hinv2 : ∀ k2, getKey (setKey result e.1 (extractValue fd e.1)) k2 =
            if (e.1 :: processed).contains k2 then some (extractValue fd k2) else none := by
          intro k2
          rw [getKey_setKey]
          by_cases h2 : e.1 = k2
          · subst h2
            simp
          · have h3 : ¬ k2 = e.1 := fun hh => h2 hh.symm
            rw [if_neg h2, hinv k2]
            simp only [List.contains_cons]
            have h4 : (k2 == e.1) = false := beq_eq_false_iff_ne.mpr h3
            rw [h4, Bool.false_or]
        rw [ih (e.1 :: processed) _ hinv2 k]
        simp only [List.contains_cons, List.any_cons]
        by_cases hek : e.1 = k
        · subst hek
          simp
        · have h3 : (k == e.1) = false :=
            beq_eq_false_iff_ne.mpr (fun hh => hek hh.symm)
          have h4 : decide (e.1 = k) = false := decide_eq_false hek
          simp only [h3, h4, Bool.false_or]

theorem extract_formData_default (fd : List (String × JValue)) (k : String) :
    getKey (extractDataFromFormData (.formData fd) {}) k =
      if (getAll fd k).length > 1 then some (.arr (getAll fd k))
      else (getAll fd k).head? := by
  show getKey ((fd.foldl (extractStep {} fd) ([], [])).2) k = _
  rw [extract_fold_default fd fd [] [] (fun k2 => by simp) k]
  simp only [List.contains_nil, Bool.false_or]
  cases hany : fd.any (fun e => e.1 = k) with
  | false =>
      have hfil : fd.filter (fun e => decide (e.1 = k)) = [] := by
        rw [List.filter_eq_nil_iff]
        intro e he
        have := List.any_eq_false.mp hany e he
        simpa using this
      have hnil : getAll fd k = [] := by
        unfold getAll
        rw [hfil]
        rfl
      simp [hnil]
  | true =>
      obtain ⟨e, he, hek⟩ := List.any_eq_true.mp hany
      have hmem : e.2 ∈ getAll fd k := by
        unfold getAll
        apply List.mem_map_of_mem
        rw [List.mem_filter]
        exact ⟨he, hek⟩
      have hne : getAll fd k ≠ [] := by
        intro hh
        rw [hh] at hmem
        exact absurd hmem (List.not_mem_nil e.2)
      unfold extractValue
      by_cases hlen : (getAll fd k).length > 1
      · simp [hlen]
      · cases hg : getAll fd k with
        | nil => exact absurd hg hne
        | cons a rest2 =>
            have h0 : ¬ 0 < rest2.length := by
              intro h0
              apply hlen
              rw [hg]
              simpa using h0
            simp [hg, hlen, h0]

/-- C7: for every FormData-like container, extraction with default
options maps each key to the multi-value collapse of all its appended
values: a key with more than one value becomes the ordered list of all
of them, a key with exactly one value becomes that value unwrapped
(never a singleton list), and an absent key stays absent. -/
theorem extract_multiValue_law (fd : List (String × JValue)) (k : String) :
    getKey (extractDataFromFormData (.formData fd) {}) k =
      multiValue (getAll fd k) := by
  rw [extract_formData_default]
  rfl


theorem extract_fold_mem (opts : FormDataExtractionOptions)
    (fd iter : List (String × JValue)) :
    ∀ (processed : List String) (result : List (String × JValue)),
    (∀ key, processed.contains key = true →
      hasKey result (transformKey opts key) = true) →
    ∀ name,
      (hasKey ((iter.foldl (extractStep opts fd) (processed, result)).2) name = true ↔
        (hasKey result name = true ∨
          ∃ e, e ∈ iter ∧ shouldProcessKey opts e.1 = true ∧
            transformKey opts e.1 = name)) := by
  induction iter with
  | nil =>
      intro processed result hinv name
      simp
  | cons e rest ih =>
      intro processed result hinv name
      rw [List.foldl_cons]
      by_cases hs : shouldProcessKey opts e.1 = true
      · by_cases hc : processed.contains e.1 = true
        · have hmem : e.1 ∈ processed := List.mem_of_elem_eq_true hc
          have hstep : extractStep opts fd (processed, result) e = (processed, result) := by
            simp [extractStep, hs, hmem]
          rw [hstep, ih processed result hinv name]
          constructor
          · rintro (h | ⟨f, hf, h1, h2⟩)
            · exact Or.inl h
            · exact Or.inr ⟨f, List.mem_cons_of_mem e hf, h1, h2⟩
          · rintro (h | ⟨f, hf, h1, h2⟩)
            · exact Or.inl h
            · rcases List.mem_cons.mp hf with rfl | hf2
              · exact Or.inl (h2 ▸ hinv f.1 hc)
              · exact Or.inr ⟨f, hf2, h1, h2⟩
        · have hmem : e.1 ∉ processed := fun hm => hc (List.elem_eq_true_of_mem hm)
          have hstep : extractStep opts fd (processed, result) e =
              (e.1 :: processed,
                setKey result (transformKey opts e.1) (extractValue fd e.1)) := by
            simp [extractStep, hs, hmem]
          rw [hstep]
          have hinv2 : ∀ key, (e.1 :: processed).contains key = true →
              hasKey (setKey result (transformKey opts e.1) (extractValue fd e.1))
                (transformKey opts key) = true := by
            intro key hk
            rw [hasKey_setKey]
            rw [List.contains_cons] at hk
            rw [Bool.or_eq_true] at hk
            rcases hk with hk1 | hk2
            · have hke : key = e.1 := beq_iff_eq.mp hk1
              subst hke
              simp
            · rw [hinv key hk2, Bool.or_true]
          rw [ih _ _ hinv2 name, hasKey_setKey, Bool.or_eq_true]
          simp only [decide_eq_true_eq]
          constructor
          · rintro ((h3 | h3) | ⟨f, hf, h1, h2⟩)
            · exact Or.inr ⟨e, List.mem_cons_self e rest, hs, h3⟩
            · exact Or.inl h3
            · exact Or.inr ⟨f, List.mem_cons_of_mem e hf, h1, h2⟩
          · rintro (h | ⟨f, hf, h1, h2⟩)
            · exact Or.inl (Or.inr h)
            · rcases List.mem_cons.mp hf with rfl | hf2
              · exact Or.inl (Or.inl h2)
              · exact Or.inr ⟨f, hf2, h1, h2⟩
      · have hs2 : shouldProcessKey opts e.1 = false := by
          revert hs
          cases shouldProcessKey opts e.1 <;> simp
        have hstep : extractStep opts fd (processed, result) e = (processed, result) := by
          simp [extractStep, hs2]
        rw [hstep, ih processed result hinv name]
        constructor
        · rintro (h | ⟨f, hf, h1, h2⟩)
          · exact Or.inl h
          · exact Or.inr ⟨f, List.mem_cons_of_mem e hf, h1, h2⟩
        · rintro (h | ⟨f, hf, h1, h2⟩)
          · exact Or.inl h
          · rcases List.mem_cons.mp hf with rfl | hf2
            · rw [h1] at hs2
              exact Bool.noConfusion hs2
            · exact Or.inr ⟨f, hf2, h1, h2⟩

theorem extract_obj_fold_mem (opts : FormDataExtractionOptions)
    (entries : List (String × JValue)) :
    ∀ (acc : List (String × JValue)) (name : String),
      (hasKey (entries.foldl
          (fun result e =>
            if shouldProcessKey opts e.1 then
              setKey result (transformKey opts e.1) e.2
            else result) acc) name = true ↔
        (hasKey acc name = true ∨
          ∃ e, e ∈ entries ∧ shouldProcessKey opts e.1 = true ∧
            transformKey opts e.1 = name)) := by
  induction entries with
  | nil =>
      intro acc name
      simp
  | cons e rest ih =>
      intro acc name
      rw [List.foldl_cons]
      by_cases hs : shouldProcessKey opts e.1 = true
      · rw [if_pos hs, ih, hasKey_setKey, Bool.or_eq_true]
        simp only [decide_eq_true_eq]
        constructor
        · rintro ((h3 | h3) | ⟨f, hf, h1, h2⟩)
          · exact Or.inr ⟨e, List.mem_cons_self e rest, hs, h3⟩
          · exact Or.inl h3
          · exact Or.inr ⟨f, List.mem_cons_of_mem e hf, h1, h2⟩
        · rintro (h | ⟨f, hf, h1, h2⟩)
          · exact Or.inl (Or.inr h)
          · rcases List.mem_cons.mp hf with rfl | hf2
            · exact Or.inl (Or.inl h2)
            · exact Or.inr ⟨f, hf2, h1, h2⟩
      · rw [if_neg hs, ih]
        have hs2 : shouldProcessKey opts e.1 = false := by
          revert hs
          cases shouldProcessKey opts e.1 <;> simp
        constructor
        · rintro (h | ⟨f, hf, h1, h2⟩)
          · exact Or.inl h
          · exact Or.inr ⟨f, List.mem_cons_of_mem e hf, h1, h2⟩
        · rintro (h | ⟨f, hf, h1, h2⟩)
          · exact Or.inl h
          · rcases List.mem_cons.mp hf with rfl | hf2
            · rw [h1] at hs2
              exact Bool.noConfusion hs2
            · exact Or.inr ⟨f, hf2, h1, h2⟩

/-- C3 (amended): a name appears in the extraction result exactly when
some source key passing the filters renames to it; a key listed in
excludeFields never passes (exclude wins over include); and whenever
includeFields is present, even as an empty list, a passing key must be
a member of it, so a present-but-empty includeFields filters out every
key. -/
theorem extract_membership_spec (src : FormInput)
    (opts : FormDataExtractionOptions) (name : String) :
    ((hasKey (extractDataFromFormData src opts) name = true ↔
      ∃ e, e ∈ src.entries ∧ shouldProcessKey opts e.1 = true ∧
        transformKey opts e.1 = name)
    ∧ (∀ k, k ∈ opts.excludeFields → shouldProcessKey opts k = false)
    ∧ (∀ k includeList, opts.includeFields = some includeList →
        shouldProcessKey opts k = true → k ∈ includeList)) := by
  refine ⟨?_, ?_, ?_⟩
  · cases src with
    | formData fd =>
        show hasKey ((fd.foldl (extractStep opts fd) ([], [])).2) name = true ↔ _
        rw [extract_fold_mem opts fd fd [] [] (fun key hk => by simp at hk) name]
        simp [hasKey, getKey, FormInput.entries]
    | obj entries =>
        show hasKey (entries.foldl _ []) name = true ↔ _
        rw [extract_obj_fold_mem opts entries [] name]
        simp [hasKey, getKey, FormInput.entries]
  · intro k hk
    unfold shouldProcessKey
    rw [if_pos (List.elem_eq_true_of_mem hk)]
  · intro k includeList hinc hsp
    unfold shouldProcessKey at hsp
    by_cases hx : opts.excludeFields.contains k = true
    · rw [if_pos hx] at hsp
      exact absurd hsp (by simp)
    · rw [if_neg hx, hinc] at hsp
      exact List.mem_of_elem_eq_true hsp

/-- C3 counterexample: with includeFields present but empty (and no
excludeFields), the claim says every key passes, yet the code drops
every key because an empty array is truthy in JavaScript: the key a of
the source is absent from the result. -/
theorem includeFields_empty_counterexample :
    hasKey (extractDataFromFormData (.obj [("a", .str "x")])
      { includeFields := some [] }) "a" = false := rfl

/-- C3 witness: a key listed in both includeFields and excludeFields
does not pass the filter. -/
theorem extract_membership_spec_witness :
    shouldProcessKey { excludeFields := ["b"], includeFields := some ["a", "b"] } "b" =
      false :=
  (extract_membership_spec (.obj [])
    { excludeFields := ["b"], includeFields := some ["a", "b"] } "a").2.1 "b" (by simp)

theorem mem_appendArrayItems (key : String) (items : List JValue) :
    ∀ (index : Nat) (item : JValue), item ∈ items →
    (∀ inner, item ≠ .arr inner) → (∀ fields, item ≠ .obj fields) →
    (key, JValue.str (jsString item)) ∈ appendArrayItems key index items := by
  induction items with
  | nil =>
      intro index item h _ _
      exact absurd h (List.not_mem_nil item)
  | cons a rest ih =>
      intro index item hmem hna hno
      have htail : item ∈ rest →
          (key, JValue.str (jsString item)) ∈ appendArrayItems key (index + 1) rest :=
        fun h2 => ih (index + 1) item h2 hna hno
      cases a with
      | arr inner =>
          simp only [appendArrayItems]
          rcases List.mem_cons.mp hmem with heq | h2
          · exact absurd heq (hna inner)
          · exact List.mem_append_right _ (htail h2)
      | obj fields =>
          simp only [appendArrayItems]
          rcases List.mem_cons.mp hmem with heq | h2
          · exact absurd heq (hno fields)
          · exact List.mem_append_right _ (htail h2)
      | str s =>
          simp only [appendArrayItems]
          rcases List.mem_cons.mp hmem with heq | h2
          · subst heq
            exact List.mem_append_left _ (List.mem_singleton_self _)
          · exact List.mem_append_right _ (htail h2)
      | num n =>
          simp only [appendArrayItems]
          rcases List.mem_cons.mp hmem with heq | h2
          · subst heq
            exact List.mem_append_left _ (List.mem_singleton_self _)
          · exact List.mem_append_right _ (htail h2)
      | bool b =>
          simp only [appendArrayItems]
          rcases List.mem_cons.mp hmem with heq | h2
          · subst heq
            exact List.mem_append_left _ (List.mem_singleton_self _)
          · exact List.mem_append_right _ (htail h2)
      | null =>
          simp only [appendArrayItems]
          rcases List.mem_cons.mp hmem with heq | h2
          · subst heq
            exact List.mem_append_left _ (List.mem_singleton_self _)
          · exact List.mem_append_right _ (htail h2)
      | date t =>
          simp only [appendArrayItems]
          rcases List.mem_cons.mp hmem with heq | h2
          · subst heq
            exact List.mem_append_left _ (List.mem_singleton_self _)
          · exact List.mem_append_right _ (htail h2)
      | file n c =>
          simp only [appendArrayItems]
          rcases List.mem_cons.mp hmem with heq | h2
          · subst heq
            exact List.mem_append_left _ (List.mem_singleton_self _)
          · exact List.mem_append_right _ (htail h2)
      | blob c =>
          simp only [appendArrayItems]
          rcases List.mem_cons.mp hmem with heq | h2
          · subst heq
            exact List.mem_append_left _ (List.mem_singleton_self _)
          · exact List.mem_append_right _ (htail h2)

theorem dateToHuman_ne_dateToISO (t : Int) : dateToHuman t ≠ dateToISO t := by
  intro h
  have hlen := congrArg String.length h
  rw [dateToHuman, dateToISO, String.length_append, String.length_append] at hlen
  have h6 : ("-HUMAN" : String).length = 6 := rfl
  have h5 : ("Z-ISO" : String).length = 5 := rfl
  rw [h5, h6] at hlen
  omega

/-- C10: inside an array handled by convertObjectToFormData, an element
that is not itself an array or a plain object, including File, Blob and
Date instances, is appended under the unqualified parent key as its
default string form; in particular a Date element of a list is appended
as its human string form, not its ISO-8601 form, and a File or Blob
element of a list is appended as a plain string, unlike the same values
appearing directly under a key, which keep the File and Blob values and
use the ISO-8601 form for dates. -/
theorem array_elements_stringified (key : String) (items : List JValue)
    (item : JValue) (hmem : item ∈ items)
    (hna : ∀ inner, item ≠ .arr inner) (hno : ∀ fields, item ≠ .obj fields) :
    (key, JValue.str (jsString item)) ∈ appendDataRecursively key (.arr items)
    ∧ (∀ t, jsString (.date t) = dateToHuman t
        ∧ dateToHuman t ≠ dateToISO t
        ∧ appendDataRecursively key (.date t) = [(key, .str (dateToISO t))])
    ∧ (∀ n c, jsString (.file n c) = "[object File]"
        ∧ appendDataRecursively key (.file n c) = [(key, .file n c)])
    ∧ (∀ c, jsString (.blob c) = "[object Blob]"
        ∧ appendDataRecursively key (.blob c) = [(key, .blob c)]) := by
  refine ⟨?_, ?_, ?_, ?_⟩
  · show (key, JValue.str (jsString item)) ∈ appendArrayItems key 0 items
    exact mem_appendArrayItems key items 0 item hmem hna hno
  · intro t
    exact ⟨rfl, dateToHuman_ne_dateToISO t, rfl⟩
  · intro n c
    exact ⟨rfl, rfl⟩
  · intro c
    exact ⟨rfl, rfl⟩

/-- C10 witness: a Date element inside a concrete list is appended as
its default string form. -/
theorem array_elements_stringified_witness :
    ("k", JValue.str (jsString (.date 0))) ∈
      appendDataRecursively "k" (.arr [.date 0, .file "f.png" "bytes"]) :=
  (array_elements_stringified "k" [.date 0, .file "f.png" "bytes"] (.date 0)
    (by simp) (by intro inner h; simp at h) (by intro fields h; simp at h)).1

theorem getKey_foldl_setKey {α : Type _} (b : List (String × α)) :
    ∀ (a : List (String × α)) (k : String), (b.map Prod.fst).Nodup →
    getKey (b.foldl (fun acc e => setKey acc e.1 e.2) a) k =
      match getKey b k with
      | some v => some v
      | none => getKey a k := by
  induction b with
  | nil =>
      intro a k _
      simp
  | cons e rest ih =>
      obtain ⟨ek, ev⟩ := e
      intro a k hnodup
      rw [List.map_cons, List.nodup_cons] at hnodup
      rw [List.foldl_cons, ih (setKey a ek ev) k hnodup.2]
      by_cases hk : ek = k
      · subst hk
        have hrest : getKey rest ek = none :=
          getKey_eq_none_of_not_mem rest ek hnodup.1
        simp [hrest, getKey_setKey]
      · rw [getKey_setKey, if_neg hk, getKey_cons, if_neg hk]

theorem getKey_merge (a b : ZodObjectSchema) (k : String)
    (hb : (b.shape.map Prod.fst).Nodup) :
    getKey (a.merge b).shape k =
      match getKey b.shape k with
      | some f => some f
      | none => getKey a.shape k := by
  have h := getKey_foldl_setKey b.shape a.shape k hb
  cases hg : getKey b.shape k with
  | some f =>
      rw [hg] at h
      exact h
  | none =>
      rw [hg] at h
      exact h

theorem hasKey_merge (a b : ZodObjectSchema) (k : String)
    (hb : (b.shape.map Prod.fst).Nodup) :
    hasKey (a.merge b).shape k = (hasKey b.shape k || hasKey a.shape k) := by
  unfold hasKey
  rw [getKey_merge a b k hb]
  cases getKey b.shape k <;> simp

theorem getKey_foldl_merge (adds : List ZodObjectSchema) :
    ∀ (base : ZodObjectSchema) (k : String),
    (∀ s, s ∈ adds → (s.shape.map Prod.fst).Nodup) →
    getKey (adds.foldl ZodObjectSchema.merge base).shape k =
      lastDeclaration k (base :: adds) := by
  induction adds with
  | nil =>
      intro base k _
      unfold lastDeclaration
      simp only [List.foldl_nil, List.reverse_cons, List.reverse_nil,
        List.nil_append, List.find?_cons, List.find?_nil]
      by_cases h : hasKey base.shape k = true
      · simp [h]
      · have h2 : hasKey base.shape k = false := by
          revert h
          cases hasKey base.shape k <;> simp
        simp [h2, getKey_eq_none_of_hasKey_false h2]
  | cons a rest ih =>
      intro base k hnodups
      have hna := hnodups a (List.mem_cons_self a rest)
      rw [List.foldl_cons,
        ih (base.merge a) k (fun s hs => hnodups s (List.mem_cons_of_mem a hs))]
      unfold lastDeclaration
      rw [List.reverse_cons, List.reverse_cons, List.reverse_cons,
        find_append_match (rest.reverse ++ [a]) [base],
        find_append_match rest.reverse [a],
        find_append_match rest.reverse [base.merge a]]
      cases hf : rest.reverse.find? (fun s => hasKey s.shape k) with
      | some s => rfl
      | none =>
          simp only [List.find?_cons, List.find?_nil]
          by_cases ha : hasKey a.shape k = true
          · have hm : hasKey (base.merge a).shape k = true := by
              rw [hasKey_merge base a k hna, ha, Bool.true_or]
            rw [hm, ha]
            simp only [cond_true, Option.some_bind]
            rw [getKey_merge base a k hna]
            cases hg : getKey a.shape k with
            | some f => rfl
            | none =>
                rw [(by simp [hasKey, hg] : hasKey a.shape k = false)] at ha
                exact absurd ha (by simp)
          · have ha2 : hasKey a.shape k = false := by
              revert ha
              cases hasKey a.shape k <;> simp
            have hga : getKey a.shape k = none := getKey_eq_none_of_hasKey_false ha2
            rw [ha2]
            by_cases hb : hasKey base.shape k = true
            · have hm : hasKey (base.merge a).shape k = true := by
                rw [hasKey_merge base a k hna, hb, Bool.or_true]
              rw [hm, hb]
              simp only [cond_true, cond_false, Option.some_bind]
              rw [getKey_merge base a k hna, hga]
            · have hb2 : hasKey base.shape k = false := by
                revert hb
                cases hasKey base.shape k <;> simp
              have hm : hasKey (base.merge a).shape k = false := by
                rw [hasKey_merge base a k hna, hb2, ha2]
                rfl
              rw [hm, hb2]

/-- C5: with modification mergeWithAnd, the dynamic schema builder
produces the left fold of pairwise merge over the auxiliary object
schemas starting from the base (here under the default strict
strategy), a field declared in several schemas resolving to the last
declaring schema entirely; concretely, merging a base whose email field
uses the email validator with an auxiliary schema redeclaring email as
a url validator and validating an email-shaped non-url string fails
with the url message, not the email message. -/
theorem mergeWithAnd_last_wins (base : ZodObjectSchema)
    (adds : List ZodObjectSchema) (input : List (String × JValue)) (k : String)
    (hnodups : ∀ s, s ∈ adds → (s.shape.map Prod.fst).Nodup) :
    (createDynamicZodSchema base input .strict .mergeWithAnd
        (adds.map ZodSchema.object)).schema
      = .object ((adds.foldl ZodObjectSchema.merge base).strict)
    ∧ getKey (adds.foldl ZodObjectSchema.merge base).shape k =
        lastDeclaration k (base :: adds)
    ∧ validateDataWithDynamicSchema emailBaseSchema
        [("email", .str "user@example.com")] .strict .mergeWithAnd
        [.object urlAuxSchema]
      = .failure [⟨[.key "email"], "Invalid url"⟩] := by
  refine ⟨?_, getKey_foldl_merge adds base k hnodups, rfl⟩
  simp [createDynamicZodSchema, List.foldl_map, ZodSchema.asZodObject]

/-- C5 witness: the merged email field is the url declaration, the last
one in merge order. -/
theorem mergeWithAnd_last_wins_witness :
    getKey ([urlAuxSchema].foldl ZodObjectSchema.merge emailBaseSchema).shape
      "email" = lastDeclaration "email" [emailBaseSchema, urlAuxSchema] :=
  (mergeWithAnd_last_wins emailBaseSchema [urlAuxSchema] [] "email"
    (by
      intro s hs
      rw [List.mem_singleton] at hs
      subst hs
      decide)).2.1

theorem parse_object (o : ZodObjectSchema) (v : JValue) :
    ZodSchema.parse (.object o) v = parseObjectSchema o v := rfl

theorem hasKey_append {α : Type _} (a b : List (String × α)) (k : String) :
    hasKey (a ++ b) k = (hasKey a k || hasKey b k) := by
  unfold hasKey
  rw [getKey_append]
  cases getKey a k <;> simp

theorem hasKey_map_pair (ks : List String) (f : String → ZodFieldSchema)
    (k : String) :
    hasKey (ks.map (fun k2 => (k2, f k2))) k = true ↔ k ∈ ks := by
  rw [hasKey_true_iff]
  simp [List.map_map, Function.comp]

theorem fieldIssuesOf_nil_of_ok
    (results : List (String × Except (List ZodIssue) (Option JValue)))
    (h : ∀ r ∈ results, ∃ out, r.2 = Except.ok out) :
    fieldIssuesOf results = [] := by
  induction results with
  | nil => rfl
  | cons r rest ih =>
      obtain ⟨name, res⟩ := r
      obtain ⟨out, hr⟩ := h (name, res) (by simp)
      simp only at hr
      subst hr
      have ih2 := ih (fun r2 hr2 => h r2 (List.mem_cons_of_mem _ hr2))
      simpa [fieldIssuesOf] using ih2

theorem parsedFieldsOf_getKey_none
    (results : List (String × Except (List ZodIssue) (Option JValue)))
    (k : String) (h : k ∉ results.map Prod.fst) :
    getKey (parsedFieldsOf results) k = none := by
  induction results with
  | nil => rfl
  | cons r rest ih =>
      obtain ⟨name, res⟩ := r
      simp only [List.map_cons, List.mem_cons] at h
      push_neg at h
      have hk : name ≠ k := fun hh => h.1 hh.symm
      have ih2 := ih h.2
      cases res with
      | error issues => simpa [parsedFieldsOf] using ih2
      | ok o =>
          cases o with
          | none => simpa [parsedFieldsOf] using ih2
          | some pv =>
              simp only [parsedFieldsOf, List.foldr_cons] at ih2 ⊢
              simp [getKey, hk, ih2]

theorem parsedFieldsOf_append
    (a b : List (String × Except (List ZodIssue) (Option JValue))) :
    parsedFieldsOf (a ++ b) = parsedFieldsOf a ++ parsedFieldsOf b := by
  induction a with
  | nil => rfl
  | cons r rest ih =>
      simp only [parsedFieldsOf, List.foldr_cons, List.cons_append] at ih ⊢
      rw [ih, List.append_assoc]

theorem fieldResultsOf_append (s1 s2 : List (String × ZodFieldSchema))
    (entries : List (String × JValue)) :
    fieldResultsOf (s1 ++ s2) entries =
      fieldResultsOf s1 entries ++ fieldResultsOf s2 entries := by
  simp [fieldResultsOf]

theorem fieldResults_map_fst (shape : List (String × ZodFieldSchema))
    (entries : List (String × JValue)) :
    (fieldResultsOf shape entries).map Prod.fst = shape.map Prod.fst := by
  simp [fieldResultsOf]

theorem getKey_parsedFields_dyn (input : List (String × JValue))
    (ks : List String) :
    ∀ (k : String) (v : JValue), k ∈ ks → getKey input k = some v →
    getKey (parsedFieldsOf
      (fieldResultsOf (ks.map (fun k2 => (k2, zodUnknown))) input)) k = some v := by
  induction ks with
  | nil =>
      intro k v h _
      exact absurd h (List.not_mem_nil k)
  | cons a rest ih =>
      intro k v hmem hv
      by_cases hak : a = k
      · subst hak
        simp [fieldResultsOf, parsedFieldsOf, zodUnknown, hv, getKey]
      · have h2 : k ∈ rest := by
          rcases List.mem_cons.mp hmem with heq | h2
          · exact absurd heq.symm hak
          · exact h2
        have ihk := ih k v h2 hv
        cases hga : getKey input a with
        | some w =>
            simp only [fieldResultsOf, parsedFieldsOf, List.map_cons,
              List.foldr_cons, List.map_map] at ihk ⊢
            simp only [zodUnknown] at ihk ⊢
            simp [hga, getKey, hak] at ihk ⊢
            exact ihk
        | none =>
            simp only [fieldResultsOf, parsedFieldsOf, List.map_cons,
              List.foldr_cons, List.map_map] at ihk ⊢
            simp only [zodUnknown] at ihk ⊢
            simp [hga] at ihk ⊢
            exact ihk

theorem entries_filter_nil_of_keys (entries : List (String × JValue))
    (q : String → Bool)
    (h : (entries.map (fun e => e.1)).filter q = []) :
    entries.filter (fun e => q e.1) = [] := by
  rw [List.filter_eq_nil_iff] at h ⊢
  intro e he
  exact h e.1 (List.mem_map_of_mem _ he)

theorem parseObjectSchema_success (o : ZodObjectSchema)
    (entries : List (String × JValue))
    (hok : ∀ r ∈ fieldResultsOf o.shape entries, ∃ out, r.2 = Except.ok out)
    (hkeys : (entries.map (fun e => e.1)).filter (fun k => !(hasKey o.shape k)) = []) :
    parseObjectSchema o (.obj entries) =
      .success (.obj (parsedFieldsOf (fieldResultsOf o.shape entries))) := by
  have hfi := fieldIssuesOf_nil_of_ok _ hok
  have hent : entries.filter (fun e => !(hasKey o.shape e.1)) = [] :=
    entries_filter_nil_of_keys entries _ hkeys
  simp only [parseObjectSchema]
  rw [hfi, hkeys]
  cases o.unknownKeys <;> simp [hent]

theorem createDynamic_allowExtra (base : ZodObjectSchema)
    (input : List (String × JValue))
    (hksN : ((input.map (fun e => e.1)).filter
      (fun k2 => !(hasKey base.shape k2))).Nodup) :
    (createDynamicZodSchema base input .allowExtraFields .defaultMod []).schema =
      (if ((input.map (fun e => e.1)).filter (fun k2 => !(hasKey base.shape k2))) = []
       then .object base.passthrough
       else .object (base.extend
        (((input.map (fun e => e.1)).filter (fun k2 => !(hasKey base.shape k2))).map
          (fun k2 => (k2, zodUnknown))))) := by
  have hdf : ((input.map (fun e => e.1)).filter
      (fun k2 => !(hasKey base.shape k2))).foldl
        (fun acc k => setKey acc k zodUnknown) [] =
      ((input.map (fun e => e.1)).filter (fun k2 => !(hasKey base.shape k2))).map
        (fun k2 => (k2, zodUnknown)) := by
    have hfresh := foldl_setKey_fresh
      (((input.map (fun e => e.1)).filter (fun k2 => !(hasKey base.shape k2))).map
        (fun k2 => (k2, zodUnknown))) []
      (fun e _ => rfl)
      (by
        have hcomp : (Prod.fst ∘ fun k2 : String => (k2, zodUnknown)) = id := rfl
        simpa [List.map_map, hcomp] using hksN)
    rw [List.foldl_map] at hfresh
    simpa using hfresh
  simp only [createDynamicZodSchema]
  rw [hdf, List.length_map]
  by_cases hk : (input.map (fun e => e.1)).filter (fun k2 => !(hasKey base.shape k2)) = []
  · simp [hk]
  · have hpos : 0 < ((input.map (fun e => e.1)).filter
        (fun k2 => !(hasKey base.shape k2))).length := List.length_pos.mpr hk
    simp [hk, hpos]

/-- C2: with validation strategy allowExtraFields and structural
modification default, for every object-shaped base schema whose fields
all validate on the input (the same input from which the dynamic
schema is built, as validateDataWithDynamicSchema does), the effective
schema accepts the input, and every undeclared key of the input is
retained in the parsed output with its value passed through unchanged
by the unknown-typed dynamic field. -/
theorem allowExtraFields_retains (base : ZodObjectSchema)
    (input : List (String × JValue))
    (hinput : (input.map (fun e => e.1)).Nodup)
    (hfields : ∀ e ∈ base.shape, ∃ out, e.2.parse (getKey input e.1) = Except.ok out) :
    ((createDynamicZodSchema base input .allowExtraFields .defaultMod
        []).schema.parse (.obj input)).isSuccess = true
    ∧ (∀ k v, getKey input k = some v → hasKey base.shape k = false →
        successObjGet ((createDynamicZodSchema base input .allowExtraFields
          .defaultMod []).schema.parse (.obj input)) k = some v) := by
  have hksN : ((input.map (fun e => e.1)).filter
      (fun k2 => !(hasKey base.shape k2))).Nodup := hinput.filter _
  rw [createDynamic_allowExtra base input hksN]
  by_cases hk : (input.map (fun e => e.1)).filter
      (fun k2 => !(hasKey base.shape k2)) = []
  · rw [if_pos hk]
    have hok : ∀ r ∈ fieldResultsOf base.passthrough.shape input,
        ∃ out, r.2 = Except.ok out := by
      intro r hr
      rcases List.mem_map.mp hr with ⟨e, he, rfl⟩
      exact hfields e he
    have hsucc := parseObjectSchema_success base.passthrough input hok hk
    constructor
    · rw [parse_object, hsucc]
      rfl
    · intro k v hv hkf
      have hmemk : k ∈ input.map Prod.fst := mem_keys_of_getKey_some hv
      have hin : k ∈ (input.map (fun e => e.1)).filter
          (fun k2 => !(hasKey base.shape k2)) :=
        List.mem_filter.mpr ⟨hmemk, by simp [hkf]⟩
      rw [hk] at hin
      exact absurd hin (List.not_mem_nil k)
  · rw [if_neg hk]
    have hfresh : ∀ e ∈ ((input.map (fun e => e.1)).filter
        (fun k2 => !(hasKey base.shape k2))).map (fun k2 => (k2, zodUnknown)),
        hasKey base.shape e.1 = false := by
      intro e he
      rcases List.mem_map.mp he with ⟨k2, hk2, rfl⟩
      have := (List.mem_filter.mp hk2).2
      revert this
      cases hasKey base.shape k2 <;> simp
    have hshape : (base.extend
        (((input.map (fun e => e.1)).filter (fun k2 => !(hasKey base.shape k2))).map
          (fun k2 => (k2, zodUnknown)))).shape =
        base.shape ++ ((input.map (fun e => e.1)).filter
          (fun k2 => !(hasKey base.shape k2))).map (fun k2 => (k2, zodUnknown)) := by
      show spreadShape _ _ = _
      exact foldl_setKey_fresh _ base.shape hfresh
        (by
          have hcomp : (Prod.fst ∘ fun k2 : String => (k2, zodUnknown)) = id := rfl
          simpa [List.map_map, hcomp] using hksN)
    have hok : ∀ r ∈ fieldResultsOf (base.extend
        (((input.map (fun e => e.1)).filter (fun k2 => !(hasKey base.shape k2))).map
          (fun k2 => (k2, zodUnknown)))).shape input,
        ∃ out, r.2 = Except.ok out := by
      rw [hshape, fieldResultsOf_append]
      intro r hr
      rcases List.mem_append.mp hr with hr1 | hr2
      · rcases List.mem_map.mp hr1 with ⟨e, he, rfl⟩
        exact hfields e he
      · rcases List.mem_map.mp hr2 with ⟨e, he, rfl⟩
        rcases List.mem_map.mp he with ⟨k2, hk2, rfl⟩
        exact ⟨getKey input k2, rfl⟩
    have hkeys : (input.map (fun e => e.1)).filter
        (fun k => !(hasKey (base.extend
          (((input.map (fun e => e.1)).filter
            (fun k2 => !(hasKey base.shape k2))).map
              (fun k2 => (k2, zodUnknown)))).shape k)) = [] := by
      rw [List.filter_eq_nil_iff]
      intro k2 hk2
      rw [hshape, hasKey_append]
      by_cases hb : hasKey base.shape k2 = true
      · simp [hb]
      · have hb2 : hasKey base.shape k2 = false := by
          revert hb
          cases hasKey base.shape k2 <;> simp
        have hmem2 : k2 ∈ (input.map (fun e => e.1)).filter
            (fun k3 => !(hasKey base.shape k3)) :=
          List.mem_filter.mpr ⟨hk2, by simp [hb2]⟩
        have := (hasKey_map_pair _ (fun _ => zodUnknown) k2).mpr hmem2
        simp [hb2, this]
    have hsucc := parseObjectSchema_success _ input hok hkeys
    constructor
    · rw [parse_object, hsucc]
      rfl
    · intro k v hv hkf
      rw [parse_object, hsucc]
      show getKey (parsedFieldsOf (fieldResultsOf _ input)) k = some v
      rw [hshape, fieldResultsOf_append, parsedFieldsOf_append, getKey_append]
      have hnone : getKey (parsedFieldsOf (fieldResultsOf base.shape input)) k = none := by
        apply parsedFieldsOf_getKey_none
        rw [fieldResults_map_fst]
        intro hmem2
        have := (hasKey_true_iff base.shape k).mpr hmem2
        rw [hkf] at this
        exact Bool.noConfusion this
      rw [hnone]
      have hmemk : k ∈ input.map Prod.fst := mem_keys_of_getKey_some hv
      have hin : k ∈ (input.map (fun e => e.1)).filter
          (fun k2 => !(hasKey base.shape k2)) :=
        List.mem_filter.mpr ⟨hmemk, by simp [hkf]⟩
      exact getKey_parsedFields_dyn input _ k v hin hv

/-- C2 witness: a base schema with one declared string field, an input
with one extra key; the parse succeeds and the extra key is retained
unchanged. -/
theorem allowExtraFields_retains_witness :
    ((createDynamicZodSchema nameOnlySchema
        [("name", .str "Bob"), ("id", .num 123)] .allowExtraFields .defaultMod
        []).schema.parse (.obj [("name", .str "Bob"), ("id", .num 123)])).isSuccess
      = true
    ∧ successObjGet ((createDynamicZodSchema nameOnlySchema
        [("name", .str "Bob"), ("id", .num 123)] .allowExtraFields .defaultMod
        []).schema.parse (.obj [("name", .str "Bob"), ("id", .num 123)])) "id"
      = some (.num 123) := by
  have h := allowExtraFields_retains nameOnlySchema
    [("name", .str "Bob"), ("id", .num 123)]
    (by decide)
    (by
      intro e he
      rw [show nameOnlySchema.shape = [("name", stringField)] from rfl,
        List.mem_singleton] at he
      subst he
      exact ⟨some (.str "Bob"), rfl⟩)
  exact ⟨h.1, h.2 "id" (.num 123) rfl rfl⟩

theorem appendDataRecursively_scalar (key : String) (v : JValue)
    (h : scalarOnly v = true) :
    appendDataRecursively key v = [(key, .str (jsString v))] := by
  cases v with
  | str s => rfl
  | num n => rfl
  | bool b => rfl
  | null => exact Bool.noConfusion h
  | date t => exact Bool.noConfusion h
  | file n c => exact Bool.noConfusion h
  | blob c => exact Bool.noConfusion h
  | arr items => exact Bool.noConfusion h
  | obj fields => exact Bool.noConfusion h

theorem appendArrayItems_scalars (key : String) (items : List JValue) :
    ∀ (index : Nat), items.all scalarOnly = true →
    appendArrayItems key index items =
      items.map (fun it => (key, JValue.str (jsString it))) := by
  induction items with
  | nil =>
      intro index _
      rfl
  | cons a rest ih =>
      intro index hall
      rw [List.all_cons, Bool.and_eq_true] at hall
      have htail := ih (index + 1) hall.2
      cases a with
      | str s => simp only [appendArrayItems, htail, List.map_cons]; rfl
      | num n => simp only [appendArrayItems, htail, List.map_cons]; rfl
      | bool b => simp only [appendArrayItems, htail, List.map_cons]; rfl
      | null => exact Bool.noConfusion hall.1
      | date t => exact Bool.noConfusion hall.1
      | file n c => exact Bool.noConfusion hall.1
      | blob c => exact Bool.noConfusion hall.1
      | arr inner => exact Bool.noConfusion hall.1
      | obj fields => exact Bool.noConfusion hall.1

theorem appendObjectFields_scalars (key : String)
    (fields : List (String × JValue)) :
    fields.all (fun e => scalarOnly e.2) = true →
    appendObjectFields key fields =
      fields.map (fun f => (key ++ "[" ++ f.1 ++ "]", JValue.str (jsString f.2))) := by
  induction fields with
  | nil =>
      intro _
      rfl
  | cons f rest ih =>
      intro hall
      rw [List.all_cons, Bool.and_eq_true] at hall
      have htail := ih hall.2
      simp only [appendObjectFields, htail, List.map_cons,
        appendDataRecursively_scalar (key ++ "[" ++ f.1 ++ "]") f.2 hall.1]
      rfl

theorem convertObjectToFormData_cons (e : String × JValue)
    (rest : List (String × JValue)) :
    convertObjectToFormData (e :: rest) =
      appendDataRecursively e.1 e.2 ++ convertObjectToFormData rest := rfl

theorem getAll_append (a b : List (String × JValue)) (k : String) :
    getAll (a ++ b) k = getAll a k ++ getAll b k := by
  simp [getAll, List.filter_append]

theorem getAll_cons (e : String × JValue) (rest : List (String × JValue))
    (k : String) :
    getAll (e :: rest) k =
      (if e.1 = k then [e.2] else []) ++ getAll rest k := by
  by_cases h : e.1 = k <;> simp [getAll, List.filter_cons, h]

theorem getAll_map_const (l : List JValue) (k0 : String) (g : JValue → JValue)
    (k : String) :
    getAll (l.map (fun x => (k0, g x))) k =
      if k0 = k then l.map g else [] := by
  induction l with
  | nil => simp [getAll]
  | cons a rest ih =>
      by_cases h : k0 = k
      · simp [getAll, List.filter_cons, h] at ih ⊢
        simp [ih]
      · simp [getAll, List.filter_cons, h] at ih ⊢

theorem getAll_nil_of_not_mem (fd : List (String × JValue)) (k : String)
    (h : k ∉ fd.map Prod.fst) : getAll fd k = [] := by
  unfold getAll
  have hfil : fd.filter (fun e => decide (e.1 = k)) = [] := by
    rw [List.filter_eq_nil_iff]
    intro e he
    simp only [decide_eq_true_eq]
    intro hh
    exact h (hh ▸ List.mem_map_of_mem Prod.fst he)
  rw [hfil]
  rfl

theorem getAll_of_nodup (ps : List (String × JValue)) (k : String)
    (h : (ps.map Prod.fst).Nodup) :
    getAll ps k =
      match getKey ps k with
      | some v => [v]
      | none => [] := by
  induction ps with
  | nil => simp [getAll]
  | cons e rest ih =>
      obtain ⟨ek, ev⟩ := e
      rw [List.map_cons, List.nodup_cons] at h
      rw [getAll_cons, ih h.2, getKey_cons]
      by_cases hk : ek = k
      · subst hk
        rw [if_pos rfl, if_pos rfl]
        rw [getKey_eq_none_of_not_mem rest ek h.1]
        rfl
      · rw [if_neg hk, if_neg hk, List.nil_append]

theorem flatExtract_keys (m : List (String × JValue)) :
    (flatExtract m).map Prod.fst = genKeys m := by
  induction m with
  | nil => rfl
  | cons e rest ih =>
      obtain ⟨key, v⟩ := e
      cases v <;>
        (simp only [flatExtract, genKeys, List.foldr_cons] at ih ⊢
         simp [List.map_map, Function.comp, ih])

theorem getKey_flatExtract_none (m : List (String × JValue)) (name : String)
    (h : name ∉ genKeys m) : getKey (flatExtract m) name = none := by
  apply getKey_eq_none_of_not_mem
  rw [flatExtract_keys]
  exact h

theorem getAll_convert_nil (m : List (String × JValue)) :
    m.all (fun e => flatShapeValue e.2) = true →
    ∀ name, name ∉ genKeys m →
    getAll (convertObjectToFormData m) name = [] := by
  induction m with
  | nil =>
      intro _ name _
      rfl
  | cons e rest ih =>
      obtain ⟨key, v⟩ := e
      intro hall name hnot
      rw [List.all_cons, Bool.and_eq_true] at hall
      rw [convertObjectToFormData_cons, getAll_append]
      cases v with
      | str s =>
          simp only [genKeys, List.foldr_cons, List.singleton_append,
            List.mem_cons] at hnot
          push_neg at hnot
          have h1 : key ≠ name := fun hh => hnot.1 hh.symm
          rw [ih hall.2 name (by simpa [genKeys] using hnot.2)]
          simp [appendDataRecursively, getAll_cons, h1, getAll]
      | num n =>
          simp only [genKeys, List.foldr_cons, List.singleton_append,
            List.mem_cons] at hnot
          push_neg at hnot
          have h1 : key ≠ name := fun hh => hnot.1 hh.symm
          rw [ih hall.2 name (by simpa [genKeys] using hnot.2)]
          simp [appendDataRecursively, getAll_cons, h1, getAll]
      | bool b =>
          simp only [genKeys, List.foldr_cons, List.singleton_append,
            List.mem_cons] at hnot
          push_neg at hnot
          have h1 : key ≠ name := fun hh => hnot.1 hh.symm
          rw [ih hall.2 name (by simpa [genKeys] using hnot.2)]
          simp [appendDataRecursively, getAll_cons, h1, getAll]
      | null => exact Bool.noConfusion hall.1
      | date t => exact Bool.noConfusion hall.1
      | file n c => exact Bool.noConfusion hall.1
      | blob c => exact Bool.noConfusion hall.1
      | arr items =>
          simp only [genKeys, List.foldr_cons, List.singleton_append,
            List.mem_cons] at hnot
          push_neg at hnot
          have h1 : key ≠ name := fun hh => hnot.1 hh.symm
          rw [ih hall.2 name (by simpa [genKeys] using hnot.2)]
          have hflat := hall.1
          rw [show flatShapeValue (.arr items) =
              (items.all scalarOnly && decide (2 ≤ items.length)) from rfl,
            Bool.and_eq_true] at hflat
          rw [show appendDataRecursively key (.arr items) =
              appendArrayItems key 0 items from rfl,
            appendArrayItems_scalars key items 0 hflat.1,
            getAll_map_const items key _ name, if_neg h1]
          rfl
      | obj fields =>
          simp only [genKeys, List.foldr_cons] at hnot
          rw [List.mem_append] at hnot
          push_neg at hnot
          rw [ih hall.2 name (by simpa [genKeys] using hnot.2)]
          have hflat := hall.1
          rw [show flatShapeValue (.obj fields) =
              fields.all (fun e => scalarOnly e.2) from rfl] at hflat
          rw [show appendDataRecursively key (.obj fields) =
              appendObjectFields key fields from rfl,
            appendObjectFields_scalars key fields hflat]
          rw [getAll_nil_of_not_mem _ name ?_]
          · rfl
          · rw [List.map_map]
            simpa [Function.comp] using hnot.1

theorem getAll_singleton (k0 : String) (v0 : JValue) (k : String) :
    getAll [(k0, v0)] k = if k0 = k then [v0] else [] := by
  by_cases h : k0 = k <;> simp [getAll, List.filter_cons, h]

theorem roundTrip_core (m : List (String × JValue)) :
    m.all (fun e => flatShapeValue e.2) = true →
    (genKeys m).Nodup →
    ∀ name, multiValue (getAll (convertObjectToFormData m) name)
      = getKey (flatExtract m) name := by
  induction m with
  | nil =>
      intro _ _ name
      rfl
  | cons e rest ih =>
      obtain ⟨key, v⟩ := e
      intro hall hnodup name
      rw [List.all_cons, Bool.and_eq_true] at hall
      rw [convertObjectToFormData_cons, getAll_append]
      cases v with
      | str s =>
          rw [show genKeys ((key, JValue.str s) :: rest) = key :: genKeys rest
              from rfl, List.nodup_cons] at hnodup
          rw [show flatExtract ((key, JValue.str s) :: rest)
              = (key, JValue.str (jsString (.str s))) :: flatExtract rest from rfl]
          rw [show appendDataRecursively key (JValue.str s)
              = [(key, JValue.str (jsString (.str s)))] from rfl]
          rw [getAll_singleton]
          by_cases hkey : key = name
          · subst hkey
            rw [if_pos rfl, getAll_convert_nil rest hall.2 key hnodup.1,
              List.append_nil, getKey_cons, if_pos rfl]
            rfl
          · rw [if_neg hkey, List.nil_append, getKey_cons, if_neg hkey]
            exact ih hall.2 hnodup.2 name
      | num n =>
          rw [show genKeys ((key, JValue.num n) :: rest) = key :: genKeys rest
              from rfl, List.nodup_cons] at hnodup
          rw [show flatExtract ((key, JValue.num n) :: rest)
              = (key, JValue.str (jsString (.num n))) :: flatExtract rest from rfl]
          rw [show appendDataRecursively key (JValue.num n)
              = [(key, JValue.str (jsString (.num n)))] from rfl]
          rw [getAll_singleton]
          by_cases hkey : key = name
          · subst hkey
            rw [if_pos rfl, getAll_convert_nil rest hall.2 key hnodup.1,
              List.append_nil, getKey_cons, if_pos rfl]
            rfl
          · rw [if_neg hkey, List.nil_append, getKey_cons, if_neg hkey]
            exact ih hall.2 hnodup.2 name
      | bool b =>
          rw [show genKeys ((key, JValue.bool b) :: rest) = key :: genKeys rest
              from rfl, List.nodup_cons] at hnodup
          rw [show flatExtract ((key, JValue.bool b) :: rest)
              = (key, JValue.str (jsString (.bool b))) :: flatExtract rest from rfl]
          rw [show appendDataRecursively key (JValue.bool b)
              = [(key, JValue.str (jsString (.bool b)))] from rfl]
          rw [getAll_singleton]
          by_cases hkey : key = name
          · subst hkey
            rw [if_pos rfl, getAll_convert_nil rest hall.2 key hnodup.1,
              List.append_nil, getKey_cons, if_pos rfl]
            rfl
          · rw [if_neg hkey, List.nil_append, getKey_cons, if_neg hkey]
            exact ih hall.2 hnodup.2 name
      | null => exact Bool.noConfusion hall.1
      | date t => exact Bool.noConfusion hall.1
      | file n c => exact Bool.noConfusion hall.1
      | blob c => exact Bool.noConfusion hall.1
      | arr items =>
          rw [show genKeys ((key, JValue.arr items) :: rest) = key :: genKeys rest
              from rfl, List.nodup_cons] at hnodup
          rw [show flatExtract ((key, JValue.arr items) :: rest)
              = (key, JValue.arr (items.map (fun it => JValue.str (jsString it))))
                :: flatExtract rest from rfl]
          have hflat := hall.1
          rw [show flatShapeValue (.arr items)
              = (items.all scalarOnly && decide (2 ≤ items.length)) from rfl,
            Bool.and_eq_true] at hflat
          rw [show appendDataRecursively key (.arr items)
              = appendArrayItems key 0 items from rfl,
            appendArrayItems_scalars key items 0 hflat.1,
            getAll_map_const]
          by_cases hkey : key = name
          · subst hkey
            rw [if_pos rfl, getAll_convert_nil rest hall.2 key hnodup.1,
              List.append_nil, getKey_cons, if_pos rfl]
            have hlen : 2 ≤ items.length := of_decide_eq_true hflat.2
            have hlen2 : (items.map (fun it => JValue.str (jsString it))).length > 1 := by
              rw [List.length_map]
              omega
            simp [multiValue, hlen2]
            omega
          · rw [if_neg hkey, List.nil_append, getKey_cons, if_neg hkey]
            exact ih hall.2 hnodup.2 name
      | obj fields =>
          rw [show genKeys ((key, JValue.obj fields) :: rest)
              = fields.map (fun f => key ++ "[" ++ f.1 ++ "]") ++ genKeys rest
              from rfl, List.nodup_append] at hnodup
          rw [show flatExtract ((key, JValue.obj fields) :: rest)
              = fields.map (fun f =>
                  (key ++ "[" ++ f.1 ++ "]", JValue.str (jsString f.2)))
                ++ flatExtract rest from rfl]
          have hsc : fields.all (fun e => scalarOnly e.2) = true := hall.1
          rw [show appendDataRecursively key (.obj fields)
              = appendObjectFields key fields from rfl,
            appendObjectFields_scalars key fields hsc]
          have hkeysmap : (fields.map (fun f =>
              (key ++ "[" ++ f.1 ++ "]", JValue.str (jsString f.2)))).map Prod.fst
              = fields.map (fun f => key ++ "[" ++ f.1 ++ "]") := by
            rw [List.map_map]
            rfl
          by_cases hname : name ∈ fields.map (fun f => key ++ "[" ++ f.1 ++ "]")
          · have hnotrest : name ∉ genKeys rest := fun hmem =>
              hnodup.2.2 hname hmem
            rw [getAll_convert_nil rest hall.2 name hnotrest, List.append_nil]
            have hnd1 : ((fields.map (fun f =>
                (key ++ "[" ++ f.1 ++ "]", JValue.str (jsString f.2)))).map
                  Prod.fst).Nodup := by
              rw [hkeysmap]
              exact hnodup.1
            rw [getAll_of_nodup _ name hnd1, getKey_append]
            cases hg : getKey (fields.map (fun f =>
                (key ++ "[" ++ f.1 ++ "]", JValue.str (jsString f.2)))) name with
            | none =>
                have hhk : hasKey (fields.map (fun f =>
                    (key ++ "[" ++ f.1 ++ "]", JValue.str (jsString f.2)))) name
                    = true :=
                  (hasKey_true_iff _ name).mpr (by rw [hkeysmap]; exact hname)
                simp [hasKey, hg] at hhk
            | some w => rfl
          · have hnot2 : name ∉ (fields.map (fun f =>
                (key ++ "[" ++ f.1 ++ "]", JValue.str (jsString f.2)))).map
                  Prod.fst := by
              rw [hkeysmap]
              exact hname
            rw [getAll_nil_of_not_mem _ name hnot2, List.nil_append,
              getKey_append, getKey_eq_none_of_not_mem _ name hnot2]
            exact ih hall.2 hnodup.2.1 name

/-- C4 (amended): extracting (with empty options) from the container
produced by convertObjectToFormData on a mapping of primitives, nested
mappings of primitives and lists of at least two primitives, with all
generated keys distinct, yields the flattened stringification: scalars
become their string form, a list comes back as the ordered list of the
string forms of its elements, and a nested mapping is not re-nested but
comes back as flat bracketed keys parentKey[childKey]. -/
theorem encode_extract_roundTrip (m : List (String × JValue))
    (hshape : m.all (fun e => flatShapeValue e.2) = true)
    (hnodup : (genKeys m).Nodup) (name : String) :
    getKey (extractDataFromFormData
        (.formData (convertObjectToFormData m)) {}) name
      = getKey (flatExtract m) name := by
  rw [extract_formData_default]
  exact roundTrip_core m hshape hnodup name

/-- C4 counterexample: on the concrete mapping with a scalar, a nested
mapping and a two-element list, the round trip does not equal the
stringified form of the claim (nesting kept): the result has no key n
at all (only the flat bracketed key survives), while the claimed
stringified form keeps a nested mapping at n. -/
theorem roundTrip_nesting_counterexample :
    ¬ (∀ name, getKey (extractDataFromFormData
        (.formData (convertObjectToFormData roundTripInput)) {}) name
      = getKey (specStringified roundTripInput) name) := by
  intro h
  have h1 := h "n"
  rw [show getKey (extractDataFromFormData
      (.formData (convertObjectToFormData roundTripInput)) {}) "n" = none
    from rfl] at h1
  rw [show getKey (specStringified roundTripInput) "n"
      = some (.obj [("x", .str "true")]) from rfl] at h1
  exact Option.noConfusion h1

/-- C4 witness: the nested field comes back under the flat bracketed
key on the concrete round-trip mapping. -/
theorem encode_extract_roundTrip_witness :
    getKey (extractDataFromFormData
        (.formData (convertObjectToFormData roundTripInput)) {}) "n[x]"
      = getKey (flatExtract roundTripInput) "n[x]" :=
  encode_extract_roundTrip roundTripInput (by decide) (by decide) "n[x]"
